import Mathlib

/-!
Shallow embedding of the turnip_music2 sources (src/data_model.rs,
src/data_model/native_metadata.rs, src/scanner.rs) and proofs about the
claims of the natural-language specification.

Modelling conventions:
* Rust `PathBuf` values are modelled as their component lists `List String`
  (component comparison in Rust is byte-wise over the OsStr; UTF-8 byte
  order coincides with the codepoint order used by Lean's `String` order).
* Rust panics (`panic!`, `.expect`, out-of-bounds slice indexing) are
  modelled as `Except.error` carrying a `Panic` value naming the panic
  site; `Except.ok` is normal return.  A `Panic` is a process abort, not a
  recoverable typed error value of the program.
* `HashMap` is modelled as an association list with insert-or-replace
  semantics; only `insert`, `get`, `remove` and `len` are used by the
  source, and the source never iterates the map, so iteration order is
  irrelevant.
-/

deriving instance DecidableEq for Except

namespace TM2

/-- MusicBrainz identifier (src/data_model.rs `MbId`), a newtype over String. -/
abbrev MbId := String

/-- A path, as its list of components (model of `PathBuf`). -/
abbrev RelPath := List String

/-- src/data_model.rs `metadata::song::Override`. -/
structure SongMetaOverride where
  song_title : Option String
  song_artists : Option (List String)
deriving DecidableEq

/-- src/data_model.rs `metadata::album::Override`. -/
structure AlbumMetaOverride where
  album_title : Option String
  album_artists : Option (List String)
deriving DecidableEq

/-- src/data_model.rs `user_defined::Origin`. -/
structure Origin where
  url : Option String
  mb_release_group_id : Option MbId
  mb_release_id : Option MbId
  mb_discid : Option String
  cddb_discid : Option String
deriving DecidableEq

/-- src/data_model.rs `user_defined::ScanFilter`. -/
structure ScanFilter where
  ext_filters : List String
deriving DecidableEq

/-- src/data_model.rs `user_defined::CompilationInputSongOverride`.
`file_rel_path` is modelled pre-split into path components
(the source pushes the string onto an empty `PathBuf`). -/
structure CompilationInputSongOverride where
  file_rel_path : RelPath
  origin_mbid : Option MbId
  override_metadata : Option SongMetaOverride
  override_position : Option Nat
deriving DecidableEq

/-- src/data_model.rs `metadata::song::CompilationDerivedMetadataSource`
(the chromaprint payload is modelled as raw bytes). -/
structure CompilationDerivedMetadataSource where
  chromaprint : Option (List Nat)
  mb_recording_id : Option MbId
deriving DecidableEq

/-- src/data_model.rs `metadata::CachedArtist`. -/
structure CachedArtist where
  id : MbId
  name : String
deriving DecidableEq

/-- src/data_model.rs `metadata::song::Cached`. -/
structure SongCached where
  song_title : String
  song_artists : List CachedArtist
deriving DecidableEq

/-- src/data_model.rs `CompilationInputSong`. -/
structure CompilationInputSong where
  file : RelPath
  origin_mbid : Option MbId
  override_metadata : Option SongMetaOverride
  derived_metadata_src : Option CompilationDerivedMetadataSource
  cached_metadata : Option SongCached
deriving DecidableEq

/-- src/data_model.rs `CompilationInputGroup`. -/
structure CompilationInputGroup where
  origin : Origin
  scan_filter : Option ScanFilter
  title : String
  song_files : List CompilationInputSong
deriving DecidableEq

/-- The panic sites of `CompilationInputGroup::new` (Rust `expect`/`panic!`
calls and the implicit bounds check of slice indexing). Reaching one of
these aborts the process. -/
inductive Panic where
  /-- `expect("non_rel_song_paths had a path that wasn't prefixed with the parent")` -/
  | pathNotUnderRoot
  /-- `panic!("rel_song_paths had duplicates")` -/
  | duplicateRelPaths
  /-- `expect("CompilationInputGroup file contained an override for a file that isn't in the compilation")` -/
  | overridePositionTargetMissing
  /-- out-of-bounds slice range in `rel_song_paths[a..=b]` -/
  | sliceIndexOutOfBounds
  /-- `panic!("CompilationInputGroup referred to song ... not present")` -/
  | overrideTargetMissing
  /-- `expect("Removing from a list that was populated with mapping")` -/
  | removeMissing
deriving DecidableEq

/-! ### HashMap model: association list with insert-or-replace -/

/-- `HashMap::get`. -/
def mapGet {K V : Type} [DecidableEq K] : List (K × V) → K → Option V
  | [], _ => none
  | (k', v) :: m, k => if k' = k then some v else mapGet m k

/-- `HashMap::insert` (replaces the value when the key is present). -/
def mapInsert {K V : Type} [DecidableEq K] : List (K × V) → K → V → List (K × V)
  | [], k, v => [(k, v)]
  | (k', v') :: m, k, v => if k' = k then (k, v) :: m else (k', v') :: mapInsert m k v

/-- `HashMap::remove`, returning the removed value and the shrunk map. -/
def mapRemove {K V : Type} [DecidableEq K] : List (K × V) → K → Option (V × List (K × V))
  | [], _ => none
  | (k', v') :: m, k =>
    if k' = k then some (v', m)
    else match mapRemove m k with
      | none => none
      | some (v, m') => some (v, (k', v') :: m')

/-! ### CompilationInputGroup::new (src/data_model.rs lines 240-334) -/

/-- `Path::strip_prefix(root)` on component lists: drop `root` if it is a
componentwise prefix, else fail. -/
def stripRoot : List String → List String → Option RelPath
  | [], p => some p
  | _ :: _, [] => none
  | r :: rs, q :: qs => if r = q then stripRoot rs qs else none

/-- The `map(strip_prefix).collect()` loop: every scanned path must be under
the group root. -/
def relPathsOf (root : List String) : List (List String) → Option (List RelPath)
  | [] => some []
  | p :: ps =>
    match stripRoot root p, relPathsOf root ps with
    | some r, some rs => some (r :: rs)
    | _, _ => none

/-- Lexicographic ≤ on lists of characters, by Unicode codepoint
(UTF-8 byte order coincides with codepoint order). -/
def charListLe : List Char → List Char → Bool
  | [], _ => true
  | _ :: _, [] => false
  | c :: cs, d :: ds => if c = d then charListLe cs ds else decide (c < d)

/-- Byte-wise ≤ on strings (`OsStr`'s `Ord`). -/
def strLe (a b : String) : Bool := charListLe a.data b.data

/-- `PathBuf`'s `Ord`: lexicographic over components, components compared
byte-wise. -/
def pathLe : RelPath → RelPath → Bool
  | [], _ => true
  | _ :: _, [] => false
  | x :: xs, y :: ys => if x = y then pathLe xs ys else strLe x y

/-- `pathLe` as a relation, for use with `List.insertionSort`. -/
def pathLeP (a b : RelPath) : Prop := pathLe a b = true

instance : DecidableRel pathLeP := fun a b => by unfold pathLeP; infer_instance

/-- `Vec::sort` on the relative paths: ascending lexicographic order over
components, components compared byte-wise (`PathBuf`'s `Ord`); Rust's
stable sort is modelled by insertion sort. -/
def songPathsSorted (rels : List RelPath) : List RelPath :=
  List.insertionSort pathLeP rels

/-- The freshly scanned `CompilationInputSong` seeded with no overrides. -/
def initSong (p : RelPath) : CompilationInputSong :=
  { file := p
    origin_mbid := none
    override_metadata := none
    derived_metadata_src := none
    cached_metadata := none }

/-- The map-building loop `for p in rel_song_paths.iter() { mapping.insert(p, ...) }`. -/
def buildMapping (l : List RelPath) : List (RelPath × CompilationInputSong) :=
  l.foldl (fun m p => mapInsert m p (initSong p)) []

/-- `<[T]>::rotate_left(1)`. -/
def rotL1 {α : Type} (xs : List α) : List α := xs.drop 1 ++ xs.take 1

/-- `<[T]>::rotate_right(1)`. -/
def rotR1 {α : Type} (xs : List α) : List α :=
  xs.drop (xs.length - 1) ++ xs.take (xs.length - 1)

/-- `l[i..=j].rotate_left(1)` in place, as a whole-list operation (`i ≤ j`). -/
def rotSegL {α : Type} (l : List α) (i j : Nat) : List α :=
  l.take i ++ rotL1 ((l.drop i).take (j - i + 1)) ++ l.drop (j + 1)

/-- `l[i..=j].rotate_right(1)` in place, as a whole-list operation (`i ≤ j`). -/
def rotSegR {α : Type} (l : List α) (i j : Nat) : List α :=
  l.take i ++ rotR1 ((l.drop i).take (j - i + 1)) ++ l.drop (j + 1)

/-- The `Some(override_pos)` arm of the reordering match: find the song's
current position (panicking if absent), then rotate the sub-range between
the current and target index.  The slice expressions
`rel_song_paths[existing..=override_pos]` / `[override_pos..=existing]`
panic when the upper bound is not below the vector length. -/
def applyPositionOverride (order : List RelPath) (path : RelPath) (op : Nat) :
    Except Panic (List RelPath) :=
  match order.findIdx? (fun p => p == path) with
  | none => .error .overridePositionTargetMissing
  | some existing =>
    if existing < op then
      if op < order.length then .ok (rotSegL order existing op)
      else .error .sliceIndexOutOfBounds
    else if op < existing then
      if existing < order.length then .ok (rotSegR order op existing)
      else .error .sliceIndexOutOfBounds
    else .ok order

/-- The field-level merge of one override into the mapped song:
`if s.origin_mbid.is_some() { ... }` / `if s.override_metadata.is_some() { ... }`. -/
def mergeSongOverride (song : CompilationInputSong) (s : CompilationInputSongOverride) :
    CompilationInputSong :=
  let song1 := if s.origin_mbid.isSome then { song with origin_mbid := s.origin_mbid } else song
  if s.override_metadata.isSome then { song1 with override_metadata := s.override_metadata }
  else song1

/-- The loop state of `for s in songs`: the mutable order vector and the mapping. -/
structure AsmState where
  order : List RelPath
  mapping : List (RelPath × CompilationInputSong)
deriving DecidableEq

/-- The `match s.override_position` reordering step of one loop iteration
(`None` leaves the order unchanged). -/
def positionStep (st : AsmState) (s : CompilationInputSongOverride) :
    Except Panic (List RelPath) :=
  match s.override_position with
  | some op => applyPositionOverride st.order s.file_rel_path op
  | none => .ok st.order

/-- One iteration of the override loop in `CompilationInputGroup::new`. -/
def applyOverride (st : AsmState) (s : CompilationInputSongOverride) : Except Panic AsmState :=
  match positionStep st s with
  | .error e => .error e
  | .ok order' =>
    match mapGet st.mapping s.file_rel_path with
    | none => .error .overrideTargetMissing
    | some song =>
      .ok { order := order',
            mapping := mapInsert st.mapping s.file_rel_path (mergeSongOverride song s) }

/-- The whole override loop, in file order. -/
def processOverrides : AsmState → List CompilationInputSongOverride → Except Panic AsmState
  | st, [] => .ok st
  | st, s :: ss =>
    match applyOverride st s with
    | .error e => .error e
    | .ok st' => processOverrides st' ss

/-- The final extraction loop: `rel_song_paths.into_iter().map(|p| mapping.remove(&p).expect(...))`. -/
def extract : List RelPath → List (RelPath × CompilationInputSong) →
    Except Panic (List CompilationInputSong)
  | [], _ => .ok []
  | p :: rest, m =>
    match mapRemove m p with
    | none => .error .removeMissing
    | some (song, m') =>
      match extract rest m' with
      | .error e => .error e
      | .ok tl => .ok (song :: tl)

/-- src/data_model.rs `CompilationInputGroup::new`. -/
def compilationNew (root : List String) (origin : Origin) (scan_filter : Option ScanFilter)
    (title : String) (songs : List CompilationInputSongOverride)
    (non_rel_song_paths : List (List String)) : Except Panic CompilationInputGroup :=
  match relPathsOf root non_rel_song_paths with
  | none => .error .pathNotUnderRoot
  | some rels =>
    if (buildMapping (songPathsSorted rels)).length ≠ (songPathsSorted rels).length then
      .error .duplicateRelPaths
    else
      match processOverrides ⟨songPathsSorted rels, buildMapping (songPathsSorted rels)⟩ songs with
      | .error e => .error e
      | .ok st =>
        match extract st.order st.mapping with
        | .error e => .error e
        | .ok files => .ok { origin := origin, scan_filter := scan_filter, title := title,
                             song_files := files }

/-! ### src/data_model/native_metadata.rs -/

/-- `NativeMetadataFormat` (the `None` variant is `noTag` here). -/
inductive NativeMetadataFormat where
  | noTag
  | id3
  | m4a
  | flac
deriving DecidableEq

/-- `NATIVE_MUSIC_EXTS`. -/
def NATIVE_MUSIC_EXTS : List String := ["mp3", "ogg", "flac", "wav", "aiff", "m4a"]

/-- `NativeMetadata` (u64 fields as Nat). -/
structure NativeMetadata where
  fmt : NativeMetadataFormat
  name : Option String
  album : Option String
  album_artists : List String
  artist : List String
  num_discs : Option Nat
  disc_idx : Option Nat
  num_tracks : Option Nat
  track_idx : Option Nat
deriving DecidableEq

/-- `NativeMetadata::default()`: format `None`, every field absent/empty. -/
def nativeMetadataDefault : NativeMetadata :=
  { fmt := .noTag, name := none, album := none, album_artists := [], artist := []
    num_discs := none, disc_idx := none, num_tracks := none, track_idx := none }

/-- ASCII lower-casing of one character (`u8::to_ascii_lowercase`). -/
def asciiLower (c : Char) : Char :=
  if 'A' ≤ c ∧ c ≤ 'Z' then Char.ofNat (c.toNat + 32) else c

/-- `OsStr::eq_ignore_ascii_case`. -/
def eqIgnoreAsciiCase (a b : String) : Bool :=
  a.data.map asciiLower == b.data.map asciiLower

/-- Part of `Path::extension`: the characters after the last `.`. -/
def afterLastDot (l : List Char) : List Char :=
  (l.reverse.takeWhile (fun c => !(c == '.'))).reverse

/-- `Path::extension` on one file-name component: `none` when there is no
embedded `.` (a leading `.` alone does not count); otherwise the portion
after the final `.`. -/
def extension (name : String) : Option String :=
  match name.data with
  | [] => none
  | _ :: rest => if rest.contains '.' then some (String.mk (afterLastDot rest)) else none

/-- `Path::extension` of a whole path: the extension of its last component. -/
def pathExtension (p : RelPath) : Option String :=
  match p.getLast? with
  | some n => extension n
  | none => none

/-- The format-dispatch match at the top of `parse_from_file`
(src/data_model/native_metadata.rs lines 51-65): case-insensitive
extension comparison. -/
def dispatchFormat (ext : Option String) : NativeMetadataFormat :=
  match ext with
  | some s =>
    if eqIgnoreAsciiCase s "mp3" || eqIgnoreAsciiCase s "wav" || eqIgnoreAsciiCase s "aiff" then
      .id3
    else if eqIgnoreAsciiCase s "flac" then .flac
    else if eqIgnoreAsciiCase s "m4a" then .m4a
    else .noTag
  | none => .noTag

/-- Result of a successful `id3::Tag::read_from_path`, restricted to the
accessors the source uses. -/
structure Id3Tag where
  title : Option String
  album : Option String
  album_artist : Option String
  artists : Option (List String)
  total_discs : Option Nat
  disc : Option Nat
  total_tracks : Option Nat
  track : Option Nat
deriving DecidableEq

/-- Result of a successful `mp4ameta::Tag::read_with_path`, restricted to
the accessors the source uses; `disc`/`track` are the (index, total) pairs
returned by `tag.disc()` / `tag.track()`. -/
structure M4aTag where
  title : Option String
  album : Option String
  album_artists : List String
  artists : List String
  disc : Option Nat × Option Nat
  track : Option Nat × Option Nat

/-- Result of a successful `metaflac::Tag::read_from_path`: `vorbis k` is
the list of values of vorbis comment `k` (`get_vorbis` returns `None` when
the key is absent). -/
structure FlacTag where
  vorbis : String → Option (List String)

/-- Value of a digit string. -/
def digitsToNat (s : List Char) : Nat :=
  s.foldl (fun n c => 10 * n + (c.toNat - '0'.toNat)) 0

/-- `str::parse::<u64>`: succeeds exactly on non-empty all-digit strings
(an optional leading sign and u64 overflow are not exercised by the
source's inputs and are not modelled). -/
def parseU64 (s : List Char) : Option Nat :=
  if s ≠ [] ∧ s.all (fun c => c.isDigit) then some (digitsToNat s) else none

/-- The captures of the first (leftmost) match of the regex
`(\d+)(/(\d+))?` in a string: group 1 (the digits), and group 3 (the
digits after the `/`) when the optional group 2 `/(\d+)` matched.
A match starts at the first digit of the string; `\d+` is greedy. -/
def trackRegexCaptures : List Char → Option (List Char × Option (List Char))
  | [] => none
  | c :: rest =>
    if c.isDigit then
      let g1 := (c :: rest).takeWhile (fun ch => ch.isDigit)
      let after := (c :: rest).dropWhile (fun ch => ch.isDigit)
      match after with
      | '/' :: d :: _ =>
        if d.isDigit then some (g1, some ((after.drop 1).takeWhile (fun ch => ch.isDigit)))
        else some (g1, none)
      | _ => some (g1, none)
    else trackRegexCaptures rest

/-- The `NativeMetadataFormat::FLAC` arm of `parse_from_file`
(src/data_model/native_metadata.rs lines 118-182), for an already-read
tag.  Three facts of the source are reproduced exactly:
* line 142-146: the track-number string is taken from the `"artist"`
  vorbis comment;
* line 158: the slash-total is parsed from capture group 2 (`"/<digits>"`,
  slash included), whose `parse::<u64>` always fails;
* lines 179-180: the `num_tracks`/`track_idx` fields are assigned from the
  oppositely-named locals. -/
def flacParse (tag : FlacTag) : Except String NativeMetadata :=
  let name := (tag.vorbis "title").bind List.getLast?
  let album := (tag.vorbis "album").bind List.getLast?
  let artist := (tag.vorbis "artist").bind List.getLast?
  let track_number_str := ((tag.vorbis "artist").bind List.getLast?).getD ""
  match trackRegexCaptures track_number_str.data with
  | some (g1, g2) =>
    match parseU64 g1 with
    | none => .error "invalid digit found in string"
    | some tidx =>
      match g2 with
      | some ds =>
        match parseU64 ('/' :: ds) with
        | none => .error "invalid digit found in string"
        | some tnum =>
          .ok { fmt := .flac, name := name, album := album, album_artists := []
                artist := artist.toList, num_discs := none, disc_idx := none
                num_tracks := some tidx, track_idx := some tnum }
      | none =>
        .ok { fmt := .flac, name := name, album := album, album_artists := []
              artist := artist.toList, num_discs := none, disc_idx := none
              num_tracks := some tidx, track_idx := none }
  | none =>
    .ok { fmt := .flac, name := name, album := album, album_artists := []
          artist := artist.toList, num_discs := none, disc_idx := none
          num_tracks := none, track_idx := none }

/-- `NativeMetadataFormat::parse_from_file`.  The three filesystem reads
are parameters: each is the `Result` of the corresponding tag library call
(`Err` when the file is unreadable/corrupt for that format), already
`map_err`ed to a string as in the source. -/
def parse_from_file (path : RelPath) (id3Read : Except String Id3Tag)
    (m4aRead : Except String M4aTag) (flacRead : Except String FlacTag) :
    Except String NativeMetadata :=
  match dispatchFormat (pathExtension path) with
  | .noTag => .ok nativeMetadataDefault
  | .id3 =>
    match id3Read with
    | .error e => .error e
    | .ok tag =>
      .ok { fmt := .id3, name := tag.title, album := tag.album
            album_artists := (match tag.album_artist with | some s => [s] | none => [])
            artist := tag.artists.getD []
            num_discs := tag.total_discs, disc_idx := tag.disc
            num_tracks := tag.total_tracks, track_idx := tag.track }
  | .m4a =>
    match m4aRead with
    | .error e => .error e
    | .ok tag =>
      .ok { fmt := .m4a, name := tag.title, album := tag.album
            album_artists := tag.album_artists, artist := tag.artists
            num_discs := tag.disc.2, disc_idx := tag.disc.1
            num_tracks := tag.track.2, track_idx := tag.track.1 }
  | .flac =>
    match flacRead with
    | .error e => .error e
    | .ok tag => flacParse tag

/-! ### src/scanner.rs `scan_group` (lines 61-89) -/

/-- The active extension set of a group scan: the group's
`scan_filter.ext_filters` when present, else `NATIVE_MUSIC_EXTS`
(byte-for-byte `OsString`s in a `HashSet`). -/
def scanExts (sf : Option ScanFilter) : List String :=
  match sf with
  | none => NATIVE_MUSIC_EXTS
  | some f => f.ext_filters

/-- The acceptance test applied to every regular file found by
`scan_group`: it has an extension and the extension is in the set
(byte-for-byte equality). -/
def fileAccepted (sf : Option ScanFilter) (path : RelPath) : Bool :=
  match pathExtension path with
  | some ext => (scanExts sf).contains ext
  | none => false

/-- The music-file candidate list produced by `scan_group` from the files
it traverses. -/
def scanGroupFiles (sf : Option ScanFilter) (files : List RelPath) : List RelPath :=
  files.filter (fileAccepted sf)

/-! ### Lemmas about the HashMap model -/

theorem mapGet_mapInsert {K V : Type} [DecidableEq K] (m : List (K × V)) (a k : K) (v : V) :
    mapGet (mapInsert m a v) k = if a = k then some v else mapGet m k := by
  induction m with
  | nil => simp [mapInsert, mapGet]
  | cons hd m ih =>
    obtain ⟨k', v'⟩ := hd
    by_cases hk' : k' = a
    · subst hk'
      simp only [mapInsert, if_pos rfl, mapGet]
      by_cases hak : k' = k
      · subst hak; simp [mapGet]
      · simp [mapGet, hak]
    · simp only [mapInsert, if_neg hk', mapGet]
      by_cases hkk : k' = k
      · subst hkk
        have : ¬ a = k' := fun h => hk' h.symm
        simp [this]
      · simp [hkk, ih]

theorem mapGet_eq_none_iff {K V : Type} [DecidableEq K] (m : List (K × V)) (k : K) :
    mapGet m k = none ↔ k ∉ m.map Prod.fst := by
  induction m with
  | nil => simp [mapGet]
  | cons hd m ih =>
    obtain ⟨k', v'⟩ := hd
    by_cases hkk : k' = k
    · subst hkk; simp [mapGet]
    · have hne : ¬ k = k' := fun h => hkk h.symm
      simp [mapGet, hkk, hne, ih]

theorem mapGet_isSome_iff {K V : Type} [DecidableEq K] (m : List (K × V)) (k : K) :
    (mapGet m k).isSome = true ↔ k ∈ m.map Prod.fst := by
  rw [Option.isSome_iff_ne_none, not_iff_comm, ← mapGet_eq_none_iff m k]

theorem keys_mapInsert {K V : Type} [DecidableEq K] (m : List (K × V)) (a : K) (v : V) :
    (mapInsert m a v).map Prod.fst =
      if a ∈ m.map Prod.fst then m.map Prod.fst else m.map Prod.fst ++ [a] := by
  induction m with
  | nil => simp [mapInsert]
  | cons hd m ih =>
    obtain ⟨k', v'⟩ := hd
    by_cases hk' : k' = a
    · subst hk'; simp [mapInsert]
    · have hne : ¬ a = k' := fun h => hk' h.symm
      by_cases hmem : a ∈ m.map Prod.fst <;>
        simp [mapInsert, hk', hmem, hne, ih]

theorem keys_nodup_mapInsert {K V : Type} [DecidableEq K] (m : List (K × V)) (a : K) (v : V)
    (h : (m.map Prod.fst).Nodup) : ((mapInsert m a v).map Prod.fst).Nodup := by
  rw [keys_mapInsert]
  by_cases hmem : a ∈ m.map Prod.fst
  · simpa [hmem]
  · simp only [hmem, if_false]
    refine List.Nodup.append h (List.nodup_singleton a) ?_
    intro b hb hba
    rw [List.mem_singleton] at hba
    subst hba
    exact hmem hb

theorem mapRemove_eq_none_iff {K V : Type} [DecidableEq K] (m : List (K × V)) (k : K) :
    mapRemove m k = none ↔ mapGet m k = none := by
  induction m with
  | nil => simp [mapRemove, mapGet]
  | cons hd m ih =>
    obtain ⟨k', v'⟩ := hd
    by_cases hkk : k' = k
    · subst hkk; simp [mapRemove, mapGet]
    · simp only [mapRemove, mapGet, if_neg hkk]
      rw [← ih]
      cases h : mapRemove m k <;> simp

theorem mapRemove_spec {K V : Type} [DecidableEq K] (m : List (K × V)) (k : K)
    (hnd : (m.map Prod.fst).Nodup) (v : V) (m' : List (K × V))
    (h : mapRemove m k = some (v, m')) :
    mapGet m k = some v ∧ (m'.map Prod.fst).Nodup ∧
      (∀ k', mapGet m' k' = if k' = k then none else mapGet m k') := by
  induction m generalizing v m' with
  | nil => simp [mapRemove] at h
  | cons hd m ih =>
    obtain ⟨k', v'⟩ := hd
    simp only [List.map_cons, List.nodup_cons] at hnd
    by_cases hkk : k' = k
    · subst hkk
      simp only [mapRemove, if_pos rfl, Option.some.injEq, Prod.mk.injEq] at h
      obtain ⟨rfl, rfl⟩ := h
      refine ⟨by simp [mapGet], hnd.2, fun k'' => ?_⟩
      by_cases hk'' : k'' = k'
      · subst hk''
        simp [(mapGet_eq_none_iff m k'').mpr hnd.1]
      · have hne : ¬ k' = k'' := fun h => hk'' h.symm
        simp [mapGet, hk'', hne]
    · simp only [mapRemove, if_neg hkk] at h
      cases hrem : mapRemove m k with
      | none => rw [hrem] at h; simp at h
      | some p =>
        obtain ⟨w, m''⟩ := p
        rw [hrem] at h
        simp only [Option.map_some', Option.some.injEq, Prod.mk.injEq] at h
        obtain ⟨rfl, rfl⟩ := h
        obtain ⟨hget, hnd', hchar⟩ := ih hnd.2 w m'' hrem
        refine ⟨by simpa [mapGet, hkk] using hget, ?_, fun k'' => ?_⟩
        · simp only [List.map_cons, List.nodup_cons]
          refine ⟨fun hmem => hnd.1 ?_, hnd'⟩
          have := (mapGet_isSome_iff m'' k').mpr hmem
          rw [hchar k'] at this
          by_cases hk'k : k' = k
          · simp [hk'k] at this
          · rw [if_neg hk'k] at this
            exact (mapGet_isSome_iff m k').mp this
        · by_cases hk'' : k'' = k'
          · subst hk''
            have hne : k'' ≠ k := hkk
            simp [mapGet, hne]
          · have hne : ¬ k' = k'' := fun h => hk'' h.symm
            simp only [mapGet, if_neg hne]
            rw [hchar k'']

/-! ### Lemmas about the path ordering -/

theorem charListLe_total : ∀ a b : List Char, charListLe a b = true ∨ charListLe b a = true
  | [], _ => Or.inl rfl
  | _ :: _, [] => Or.inr rfl
  | c :: cs, d :: ds => by
    by_cases hcd : c = d
    · subst hcd
      simpa [charListLe] using charListLe_total cs ds
    · rcases lt_or_gt_of_ne hcd with h | h
      · left; simp [charListLe, hcd, h]
      · have hdc : ¬ d = c := fun hh => hcd hh.symm
        right; simp [charListLe, hdc, h]

theorem charListLe_antisymm : ∀ a b : List Char,
    charListLe a b = true → charListLe b a = true → a = b
  | [], [], _, _ => rfl
  | [], _ :: _, _, h => by simp [charListLe] at h
  | _ :: _, [], h, _ => by simp [charListLe] at h
  | c :: cs, d :: ds, h1, h2 => by
    by_cases hcd : c = d
    · subst hcd
      simp only [charListLe, if_pos rfl] at h1 h2
      rw [charListLe_antisymm cs ds h1 h2]
    · simp only [charListLe, if_neg hcd, decide_eq_true_eq] at h1
      have hdc : ¬ d = c := fun hh => hcd hh.symm
      simp only [charListLe, if_neg hdc, decide_eq_true_eq] at h2
      exact absurd h2 (lt_asymm h1)

theorem charListLe_trans : ∀ a b c : List Char,
    charListLe a b = true → charListLe b c = true → charListLe a c = true
  | [], _, _, _, _ => rfl
  | _ :: _, [], _, h, _ => by simp [charListLe] at h
  | _ :: _, _ :: _, [], _, h => by simp [charListLe] at h
  | a :: as, b :: bs, c :: cs, h1, h2 => by
    by_cases hab : a = b
    · subst hab
      simp only [charListLe, if_pos rfl] at h1
      by_cases hbc : a = c
      · subst hbc
        simp only [charListLe, if_pos rfl] at h2 ⊢
        exact charListLe_trans as bs cs h1 h2
      · simpa [charListLe, hbc] using h2
    · simp only [charListLe, if_neg hab, decide_eq_true_eq] at h1
      by_cases hbc : b = c
      · subst hbc
        simp [charListLe, hab, h1]
      · simp only [charListLe, if_neg hbc, decide_eq_true_eq] at h2
        have hac : a < c := lt_trans h1 h2
        simp [charListLe, ne_of_lt hac, hac]

theorem strLe_total (a b : String) : strLe a b = true ∨ strLe b a = true :=
  charListLe_total a.data b.data

theorem strLe_antisymm (a b : String) (h1 : strLe a b = true) (h2 : strLe b a = true) : a = b :=
  String.ext (charListLe_antisymm a.data b.data h1 h2)

theorem strLe_trans (a b c : String) (h1 : strLe a b = true) (h2 : strLe b c = true) :
    strLe a c = true :=
  charListLe_trans a.data b.data c.data h1 h2

theorem pathLe_total : ∀ a b : RelPath, pathLe a b = true ∨ pathLe b a = true
  | [], _ => Or.inl rfl
  | _ :: _, [] => Or.inr rfl
  | x :: xs, y :: ys => by
    by_cases hxy : x = y
    · subst hxy
      simpa [pathLe] using pathLe_total xs ys
    · have hyx : ¬ y = x := fun hh => hxy hh.symm
      simpa [pathLe, hxy, hyx] using strLe_total x y

theorem pathLe_trans : ∀ a b c : RelPath,
    pathLe a b = true → pathLe b c = true → pathLe a c = true
  | [], _, _, _, _ => rfl
  | _ :: _, [], _, h, _ => by simp [pathLe] at h
  | _ :: _, _ :: _, [], _, h => by simp [pathLe] at h
  | x :: xs, y :: ys, z :: zs, h1, h2 => by
    by_cases hxy : x = y
    · subst hxy
      simp only [pathLe, if_pos rfl] at h1
      by_cases hyz : x = z
      · subst hyz
        simp only [pathLe, if_pos rfl] at h2 ⊢
        exact pathLe_trans xs ys zs h1 h2
      · simpa [pathLe, hyz] using h2
    · simp only [pathLe, if_neg hxy] at h1
      by_cases hyz : y = z
      · subst hyz
        simp [pathLe, hxy, h1]
      · simp only [pathLe, if_neg hyz] at h2
        by_cases hxz : x = z
        · subst hxz
          exact absurd (strLe_antisymm x y h1 h2) hxy
        · simpa [pathLe, hxz] using strLe_trans x y z h1 h2

instance : IsTotal RelPath pathLeP := ⟨pathLe_total⟩

instance : IsTrans RelPath pathLeP := ⟨pathLe_trans⟩

/-! ### Lemmas about the sub-range rotations -/

open scoped List

theorem rotL1_perm {α : Type} (xs : List α) : rotL1 xs ~ xs := by
  calc rotL1 xs = xs.drop 1 ++ xs.take 1 := rfl
    _ ~ xs.take 1 ++ xs.drop 1 := List.perm_append_comm
    _ = xs := List.take_append_drop 1 xs

theorem rotR1_perm {α : Type} (xs : List α) : rotR1 xs ~ xs := by
  calc rotR1 xs = xs.drop (xs.length - 1) ++ xs.take (xs.length - 1) := rfl
    _ ~ xs.take (xs.length - 1) ++ xs.drop (xs.length - 1) := List.perm_append_comm
    _ = xs := List.take_append_drop _ xs

theorem seg_decomp {α : Type} (l : List α) (i j : Nat) (hij : i ≤ j) :
    l.take i ++ (l.drop i).take (j - i + 1) ++ l.drop (j + 1) = l := by
  rw [List.append_assoc]
  have hdd : l.drop (j + 1) = (l.drop i).drop (j - i + 1) := by
    rw [List.drop_drop]
    congr 1
    omega
  rw [hdd, List.take_append_drop, List.take_append_drop]

theorem rotSegL_perm {α : Type} (l : List α) (i j : Nat) (hij : i ≤ j) : rotSegL l i j ~ l := by
  have h := (rotL1_perm ((l.drop i).take (j - i + 1))).append_left (l.take i)
  have h2 := h.append_right (l.drop (j + 1))
  calc rotSegL l i j = l.take i ++ rotL1 ((l.drop i).take (j - i + 1)) ++ l.drop (j + 1) := rfl
    _ ~ l.take i ++ (l.drop i).take (j - i + 1) ++ l.drop (j + 1) := h2
    _ = l := seg_decomp l i j hij

theorem rotSegR_perm {α : Type} (l : List α) (i j : Nat) (hij : i ≤ j) : rotSegR l i j ~ l := by
  have h := (rotR1_perm ((l.drop i).take (j - i + 1))).append_left (l.take i)
  have h2 := h.append_right (l.drop (j + 1))
  calc rotSegR l i j = l.take i ++ rotR1 ((l.drop i).take (j - i + 1)) ++ l.drop (j + 1) := rfl
    _ ~ l.take i ++ (l.drop i).take (j - i + 1) ++ l.drop (j + 1) := h2
    _ = l := seg_decomp l i j hij

theorem insertIdx_eq_take_cons_drop {α : Type} :
    ∀ (j : Nat) (x : α) (xs : List α), j ≤ xs.length →
      List.insertIdx j x xs = xs.take j ++ x :: xs.drop j
  | 0, _, _, _ => by simp
  | j + 1, x, [], h => absurd h (Nat.not_succ_le_zero j)
  | j + 1, x, y :: ys, h => by
    simpa using insertIdx_eq_take_cons_drop j x ys (by simpa using h)

/-- Removing index `i` and re-inserting the removed element at index `i`
is the identity. -/
theorem insertIdx_getElem_eraseIdx {α : Type} (l : List α) (i : Nat) (x : α)
    (h : i < l.length) (hx : l[i]? = some x) :
    List.insertIdx i x (l.eraseIdx i) = l := by
  have hx2 : l[i] = x := by
    rw [List.getElem?_eq_getElem h] at hx
    simpa using hx
  have hlen : i ≤ (l.eraseIdx i).length := by
    rw [List.length_eraseIdx_of_lt h]
    omega
  rw [insertIdx_eq_take_cons_drop i _ _ hlen, List.eraseIdx_eq_take_drop_succ,
    List.take_left' (by simpa using Nat.le_of_lt h),
    List.drop_left' (by simpa using Nat.le_of_lt h)]
  conv_rhs => rw [← List.take_append_drop i l, List.drop_eq_getElem_cons h, hx2]

/-- `rotate_left(1)` of the sub-range `[i ..= j]` moves the element at `i`
to position `j`: it equals erase-at-`i` followed by insert-at-`j`. -/
theorem rotSegL_eq_insertIdx_eraseIdx {α : Type} :
    ∀ (i j : Nat) (l : List α) (p : α), i ≤ j → j < l.length → l[i]? = some p →
      rotSegL l i j = List.insertIdx j p (l.eraseIdx i)
  | 0, j, l, p, _, hj, hp => by
    cases l with
    | nil => simp at hp
    | cons q l' =>
      have hq : q = p := by simpa using hp
      subst hq
      have hj' : j ≤ l'.length := by simpa using Nat.lt_succ_iff.mp (by simpa using hj)
      simp only [rotSegL, rotL1, List.take_zero, List.drop_zero, Nat.sub_zero,
        List.take_succ_cons, List.drop_succ_cons, List.nil_append, List.drop_one,
        List.tail_cons, List.eraseIdx_zero]
      rw [insertIdx_eq_take_cons_drop j q l' hj']
      simp
  | i + 1, 0, _, _, hij, _, _ => absurd hij (Nat.not_succ_le_zero i)
  | _ + 1, _ + 1, [], p, _, hj, _ => by simp at hj
  | i + 1, j + 1, q :: l', p, hij, hj, hp => by
    have step : rotSegL (q :: l') (i + 1) (j + 1) = q :: rotSegL l' i j := by
      simp only [rotSegL, List.take_succ_cons, List.drop_succ_cons, Nat.succ_sub_succ]
      simp
    rw [step, rotSegL_eq_insertIdx_eraseIdx i j l' p (Nat.le_of_succ_le_succ hij)
      (by simpa using hj) (by simpa using hp)]
    simp

/-- `rotate_right(1)` of the sub-range `[i ..= j]` moves the element at `j`
to position `i`: it equals erase-at-`j` followed by insert-at-`i`. -/
theorem rotSegR_eq_insertIdx_eraseIdx {α : Type} :
    ∀ (i j : Nat) (l : List α) (p : α), i ≤ j → j < l.length → l[j]? = some p →
      rotSegR l i j = List.insertIdx i p (l.eraseIdx j)
  | 0, j, l, p, _, hj, hp => by
    have hp2 : l[j] = p := by
      have := List.getElem?_eq_getElem hj
      rw [this] at hp
      simpa using hp
    have hlen : (l.take (j + 1)).length = j + 1 := by
      simp [List.length_take, Nat.min_eq_left (Nat.succ_le_of_lt hj)]
    simp only [rotSegR, rotR1, List.take_zero, List.drop_zero, Nat.sub_zero, List.nil_append,
      hlen, Nat.add_sub_cancel]
    rw [List.drop_take, List.take_take]
    have h1 : j + 1 - j = 1 := by omega
    have h2 : min j (j + 1) = j := by omega
    rw [h1, h2, List.drop_eq_getElem_cons hj, hp2]
    simp [List.eraseIdx_eq_take_drop_succ]
  | i + 1, 0, _, _, hij, _, _ => absurd hij (Nat.not_succ_le_zero i)
  | _ + 1, _ + 1, [], p, _, hj, _ => by simp at hj
  | i + 1, j + 1, q :: l', p, hij, hj, hp => by
    have step : rotSegR (q :: l') (i + 1) (j + 1) = q :: rotSegR l' i j := by
      simp only [rotSegR, List.take_succ_cons, List.drop_succ_cons, Nat.succ_sub_succ]
      simp
    rw [step, rotSegR_eq_insertIdx_eraseIdx i j l' p (Nat.le_of_succ_le_succ hij)
      (by simpa using hj) (by simpa using hp)]
    simp

/-! ### Lemmas about buildMapping and the duplicate check -/

theorem mapGet_buildMapping_aux (k : RelPath) :
    ∀ (l : List RelPath) (m : List (RelPath × CompilationInputSong)),
      mapGet (l.foldl (fun m p => mapInsert m p (initSong p)) m) k =
        if k ∈ l then some (initSong k) else mapGet m k
  | [], m => by simp
  | p :: l, m => by
    rw [List.foldl_cons, mapGet_buildMapping_aux k l]
    by_cases hl : k ∈ l
    · simp [hl]
    · by_cases hpk : p = k
      · subst hpk
        simp [hl, mapGet_mapInsert]
      · have hkp : ¬ k = p := fun h => hpk h.symm
        simp [hl, hpk, hkp, mapGet_mapInsert]

theorem mapGet_buildMapping (l : List RelPath) (k : RelPath) :
    mapGet (buildMapping l) k = if k ∈ l then some (initSong k) else none := by
  rw [buildMapping, mapGet_buildMapping_aux]
  rfl

theorem buildMapping_keys_nodup_aux :
    ∀ (l : List RelPath) (m : List (RelPath × CompilationInputSong)),
      (m.map Prod.fst).Nodup →
      (((l.foldl (fun m p => mapInsert m p (initSong p)) m)).map Prod.fst).Nodup
  | [], _, h => h
  | p :: l, m, h => by
    rw [List.foldl_cons]
    exact buildMapping_keys_nodup_aux l _ (keys_nodup_mapInsert m p _ h)

theorem buildMapping_keys_nodup (l : List RelPath) :
    ((buildMapping l).map Prod.fst).Nodup :=
  buildMapping_keys_nodup_aux l [] List.nodup_nil

theorem mem_keys_buildMapping (l : List RelPath) (k : RelPath) :
    k ∈ (buildMapping l).map Prod.fst ↔ k ∈ l := by
  rw [← mapGet_isSome_iff, mapGet_buildMapping]
  by_cases h : k ∈ l <;> simp [h]

theorem buildMapping_length_eq_iff_nodup (l : List RelPath) :
    (buildMapping l).length = l.length ↔ l.Nodup := by
  have hkeys : (buildMapping l).length = ((buildMapping l).map Prod.fst).length :=
    (List.length_map _ _).symm
  have hperm : (buildMapping l).map Prod.fst ~ l.dedup := by
    refine List.perm_of_nodup_nodup_toFinset_eq (buildMapping_keys_nodup l) (List.nodup_dedup l) ?_
    ext x
    rw [List.mem_toFinset, List.mem_toFinset, mem_keys_buildMapping, List.mem_dedup]
  rw [hkeys, hperm.length_eq]
  constructor
  · intro hlen
    exact List.dedup_eq_self.mp ((List.dedup_sublist l).eq_of_length hlen)
  · intro hnd
    rw [List.dedup_eq_self.mpr hnd]

/-! ### The loop invariant of the override pass -/

theorem mergeSongOverride_file (song : CompilationInputSong) (s : CompilationInputSongOverride) :
    (mergeSongOverride song s).file = song.file := by
  unfold mergeSongOverride
  split_ifs <;> rfl

theorem applyPositionOverride_perm (order : List RelPath) (path : RelPath) (op : Nat)
    (order' : List RelPath) (h : applyPositionOverride order path op = .ok order') :
    order' ~ order := by
  unfold applyPositionOverride at h
  cases hfind : order.findIdx? (fun p => p == path) with
  | none => simp only [hfind] at h; exact Except.noConfusion h
  | some existing =>
    simp only [hfind] at h
    by_cases h1 : existing < op
    · rw [if_pos h1] at h
      by_cases h2 : op < order.length
      · rw [if_pos h2] at h
        simp only [Except.ok.injEq] at h
        subst h
        exact rotSegL_perm order existing op (Nat.le_of_lt h1)
      · rw [if_neg h2] at h; simp at h
    · rw [if_neg h1] at h
      by_cases h2 : op < existing
      · rw [if_pos h2] at h
        by_cases h3 : existing < order.length
        · rw [if_pos h3] at h
          simp only [Except.ok.injEq] at h
          subst h
          exact rotSegR_perm order op existing (Nat.le_of_lt h2)
        · rw [if_neg h3] at h; simp at h
      · rw [if_neg h2] at h
        simp only [Except.ok.injEq] at h
        subst h
        exact List.Perm.refl order

theorem applyOverride_inv (sorted : List RelPath) (st st' : AsmState)
    (s : CompilationInputSongOverride)
    (hperm : st.order ~ sorted)
    (hget : ∀ k, (mapGet st.mapping k).isSome = true ↔ k ∈ sorted)
    (hfile : ∀ k sg, mapGet st.mapping k = some sg → sg.file = k)
    (hnd : (st.mapping.map Prod.fst).Nodup)
    (h : applyOverride st s = .ok st') :
    st'.order ~ sorted ∧ (∀ k, (mapGet st'.mapping k).isSome = true ↔ k ∈ sorted) ∧
      (∀ k sg, mapGet st'.mapping k = some sg → sg.file = k) ∧
      (st'.mapping.map Prod.fst).Nodup := by
  unfold applyOverride at h
  cases hpos : positionStep st s with
  | error e => simp only [hpos] at h; exact Except.noConfusion h
  | ok order' =>
    simp only [hpos] at h
    cases hsong : mapGet st.mapping s.file_rel_path with
    | none => simp only [hsong] at h; exact Except.noConfusion h
    | some song =>
      simp only [hsong, Except.ok.injEq] at h
      subst h
      have horder : order' ~ st.order := by
        unfold positionStep at hpos
        cases hop : s.override_position with
        | none => simp only [hop, Except.ok.injEq] at hpos; rw [← hpos]
        | some op =>
          simp only [hop] at hpos
          exact applyPositionOverride_perm st.order s.file_rel_path op order' hpos
      refine ⟨horder.trans hperm, fun k => ?_, fun k sg hk => ?_, ?_⟩
      · rw [mapGet_mapInsert]
        by_cases hk : s.file_rel_path = k
        · subst hk
          simpa using (hget s.file_rel_path).mp (by simp [hsong])
        · simp only [if_neg hk]
          exact hget k
      · rw [mapGet_mapInsert] at hk
        by_cases hkp : s.file_rel_path = k
        · rw [if_pos hkp] at hk
          have : sg = mergeSongOverride song s := by
            exact (Option.some.injEq _ _ ▸ hk).symm
          subst this
          rw [mergeSongOverride_file, hfile s.file_rel_path song hsong, hkp]
        · rw [if_neg hkp] at hk
          exact hfile k sg hk
      · exact keys_nodup_mapInsert st.mapping s.file_rel_path _ hnd

theorem processOverrides_inv (sorted : List RelPath) :
    ∀ (ss : List CompilationInputSongOverride) (st st' : AsmState),
      st.order ~ sorted →
      (∀ k, (mapGet st.mapping k).isSome = true ↔ k ∈ sorted) →
      (∀ k sg, mapGet st.mapping k = some sg → sg.file = k) →
      (st.mapping.map Prod.fst).Nodup →
      processOverrides st ss = .ok st' →
      st'.order ~ sorted ∧ (∀ k, (mapGet st'.mapping k).isSome = true ↔ k ∈ sorted) ∧
        (∀ k sg, mapGet st'.mapping k = some sg → sg.file = k) ∧
        (st'.mapping.map Prod.fst).Nodup
  | [], st, st', hperm, hget, hfile, hnd, h => by
    simp only [processOverrides, Except.ok.injEq] at h
    subst h
    exact ⟨hperm, hget, hfile, hnd⟩
  | s :: ss, st, st', hperm, hget, hfile, hnd, h => by
    simp only [processOverrides] at h
    cases hstep : applyOverride st s with
    | error e => simp only [hstep] at h; exact Except.noConfusion h
    | ok st1 =>
      simp only [hstep] at h
      obtain ⟨h1, h2, h3, h4⟩ := applyOverride_inv sorted st st1 s hperm hget hfile hnd hstep
      exact processOverrides_inv sorted ss st1 st' h1 h2 h3 h4 h

/-! ### The extraction pass -/

theorem extract_ok :
    ∀ (order : List RelPath) (m : List (RelPath × CompilationInputSong)),
      order.Nodup →
      (∀ k, (mapGet m k).isSome = true ↔ k ∈ order) →
      (∀ k sg, mapGet m k = some sg → sg.file = k) →
      (m.map Prod.fst).Nodup →
      ∃ files, extract order m = .ok files ∧ files.map (fun s => s.file) = order
  | [], m, _, _, _, _ => ⟨[], rfl, rfl⟩
  | p :: rest, m, hnd, hget, hfile, hmnd => by
    have hpsome : (mapGet m p).isSome = true := (hget p).mpr (List.mem_cons_self p rest)
    cases hrem : mapRemove m p with
    | none =>
      rw [mapRemove_eq_none_iff] at hrem
      rw [hrem] at hpsome
      simp at hpsome
    | some pr =>
      obtain ⟨song, m'⟩ := pr
      obtain ⟨hgetp, hmnd', hchar⟩ := mapRemove_spec m p hmnd song m' hrem
      have hfilep : song.file = p := hfile p song hgetp
      have hndrest : rest.Nodup := (List.nodup_cons.mp hnd).2
      have hpniterest : p ∉ rest := (List.nodup_cons.mp hnd).1
      have hget' : ∀ k, (mapGet m' k).isSome = true ↔ k ∈ rest := by
        intro k
        rw [hchar k]
        by_cases hk : k = p
        · subst hk
          simp [hpniterest]
        · rw [if_neg hk, hget k]
          simp [hk]
      have hfile' : ∀ k sg, mapGet m' k = some sg → sg.file = k := by
        intro k sg hk
        rw [hchar k] at hk
        by_cases hkp : k = p
        · rw [if_pos hkp] at hk; simp at hk
        · rw [if_neg hkp] at hk
          exact hfile k sg hk
      obtain ⟨files, hex, hmap⟩ := extract_ok rest m' hndrest hget' hfile' hmnd'
      exact ⟨song :: files, by simp [extract, hrem, hex], by simp [hmap, hfilep]⟩

/-! ### Characterization of successful group assembly -/

theorem relPathsOf_length (root : List String) :
    ∀ (ps : List (List String)) (rels : List RelPath),
      relPathsOf root ps = some rels → rels.length = ps.length
  | [], rels, h => by
    simp only [relPathsOf, Option.some.injEq] at h
    subst h
    rfl
  | p :: ps, rels, h => by
    simp only [relPathsOf] at h
    cases hs : stripRoot root p with
    | none => simp only [hs] at h; exact Option.noConfusion h
    | some r =>
      simp only [hs] at h
      cases hrs : relPathsOf root ps with
      | none => simp only [hrs] at h; exact Option.noConfusion h
      | some rs =>
        simp only [hrs, Option.some.injEq] at h
        subst h
        simpa using relPathsOf_length root ps rs hrs

theorem compilationNew_ok_spec (root : List String) (origin : Origin)
    (sf : Option ScanFilter) (title : String) (songs : List CompilationInputSongOverride)
    (nonRel : List (List String)) (g : CompilationInputGroup)
    (h : compilationNew root origin sf title songs nonRel = .ok g) :
    ∃ rels st,
      relPathsOf root nonRel = some rels ∧
      rels.Nodup ∧
      processOverrides ⟨songPathsSorted rels, buildMapping (songPathsSorted rels)⟩ songs
        = .ok st ∧
      g.song_files.map (fun s => s.file) = st.order ∧
      st.order ~ songPathsSorted rels ∧
      g.origin = origin ∧ g.scan_filter = sf ∧ g.title = title := by
  unfold compilationNew at h
  cases hrels : relPathsOf root nonRel with
  | none => simp only [hrels] at h; exact Except.noConfusion h
  | some rels =>
    simp only [hrels] at h
    by_cases hdup : (buildMapping (songPathsSorted rels)).length = (songPathsSorted rels).length
    · rw [if_neg (not_not_intro hdup)] at h
      have hsortnd : (songPathsSorted rels).Nodup := by
        have := (buildMapping_length_eq_iff_nodup (songPathsSorted rels)).mp hdup
        exact this
      have hrelsnd : rels.Nodup :=
        ((List.perm_insertionSort pathLeP rels).nodup_iff).mp hsortnd
      cases hproc : processOverrides ⟨songPathsSorted rels, buildMapping (songPathsSorted rels)⟩
          songs with
      | error e => simp only [hproc] at h; exact Except.noConfusion h
      | ok st =>
        simp only [hproc] at h
        obtain ⟨hperm, hget, hfile, hnd⟩ :=
          processOverrides_inv (songPathsSorted rels) songs _ st (List.Perm.refl _)
            (fun k => by
              rw [mapGet_buildMapping]
              by_cases hk : k ∈ songPathsSorted rels <;> simp [hk])
            (fun k sg hk => by
              rw [mapGet_buildMapping] at hk
              by_cases hkk : k ∈ songPathsSorted rels
              · rw [if_pos hkk] at hk
                simp only [Option.some.injEq] at hk
                rw [← hk]
                rfl
              · rw [if_neg hkk] at hk; simp at hk)
            (buildMapping_keys_nodup _) hproc
        have hordnd : st.order.Nodup := (hperm.nodup_iff).mpr hsortnd
        obtain ⟨files, hex, hmap⟩ := extract_ok st.order st.mapping hordnd
          (fun k => (hget k).trans (hperm.mem_iff).symm)
          hfile hnd
        simp only [hex, Except.ok.injEq] at h
        subst h
        exact ⟨rels, st, rfl, hrelsnd, hproc, hmap, hperm, rfl, rfl, rfl⟩
    · rw [if_pos hdup] at h
      simp at h

/-! ### Shared helper facts for the claim theorems -/

theorem fileAccepted_iff (sf : Option ScanFilter) (p : RelPath) :
    fileAccepted sf p = true ↔ ∃ e, pathExtension p = some e ∧ e ∈ scanExts sf := by
  unfold fileAccepted
  cases h : pathExtension p with
  | none => simp
  | some e =>
    simp only [Option.some.injEq]
    constructor
    · intro hc
      exact ⟨e, rfl, by simpa [List.contains] using List.elem_iff.mp hc⟩
    · rintro ⟨e', rfl, hmem⟩
      simpa [List.contains] using List.elem_iff.mpr hmem

theorem findIdx?_getElem_eq {l : List RelPath} {path : RelPath} {i : Nat}
    (h : l.findIdx? (fun p => p == path) = some i) :
    i < l.length ∧ l[i]? = some path := by
  obtain ⟨hi, hpi, _⟩ := List.findIdx?_eq_some_iff_getElem.mp h
  refine ⟨hi, ?_⟩
  rw [List.getElem?_eq_getElem hi]
  simpa using hpi

/-! ### Claim theorems -/

/-- C1: applying a user override with an explicit target position relocates
the named song to that position by a single rotation of the sub-range
between its current index `i` and the target index `j`: the result equals
remove-at-`i`-then-insert-at-`j` (so the song ends at the target index,
the songs between the two positions shift by one slot, and all other songs
keep their relative order), and the element at the target index is the
named song.  Moreover on the spec's example — scanned order
`[a.mp3, b.mp3, c.mp3]` with one override sending `c.mp3` to position 0 —
the final assembled order is `[c.mp3, a.mp3, b.mp3]`.  Overrides are
processed in file order by `processOverrides`, so later overrides observe
the already-shifted order. -/
theorem c1_position_override_is_rotation :
    (∀ (l : List RelPath) (path : RelPath) (i j : Nat),
        l.findIdx? (fun p => p == path) = some i → j < l.length →
        applyPositionOverride l path j = .ok (List.insertIdx j path (l.eraseIdx i)) ∧
          (List.insertIdx j path (l.eraseIdx i))[j]? = some path) ∧
      (compilationNew ["root"] ⟨none, none, none, none, none⟩ none "comp"
          [{ file_rel_path := ["c.mp3"], origin_mbid := none, override_metadata := none,
             override_position := some 0 }]
          [["root", "a.mp3"], ["root", "b.mp3"], ["root", "c.mp3"]]).map
          (fun g => g.song_files.map (fun s => s.file))
        = .ok [["c.mp3"], ["a.mp3"], ["b.mp3"]] := by
  constructor
  · intro l path i j hfind hj
    obtain ⟨hi, hget?⟩ := findIdx?_getElem_eq hfind
    have hlen0 : 0 < l.length := Nat.lt_of_le_of_lt (Nat.zero_le i) hi
    constructor
    · simp only [applyPositionOverride, hfind]
      rcases Nat.lt_trichotomy i j with hij | rfl | hji
      · rw [if_pos hij, if_pos hj, rotSegL_eq_insertIdx_eraseIdx i j l path
          (Nat.le_of_lt hij) hj hget?]
      · rw [if_neg (lt_irrefl i), if_neg (lt_irrefl i)]
        rw [insertIdx_getElem_eraseIdx l i path hi hget?]
      · rw [if_neg (Nat.not_lt_of_lt hji), if_pos hji, if_pos hi,
          rotSegR_eq_insertIdx_eraseIdx j i l path (Nat.le_of_lt hji) hi hget?]
    · have hjlen : j ≤ (l.eraseIdx i).length := by
        rw [List.length_eraseIdx_of_lt hi]
        omega
      have hb : j < (List.insertIdx j path (l.eraseIdx i)).length := by
        rw [List.length_insertIdx j _ hjlen]
        omega
      rw [List.getElem?_eq_getElem hb, List.getElem_insertIdx_self _ path j hjlen]
  · decide

/-- C2: before any position overrides are applied, the scanned relative
paths are sorted ascending in the byte-wise lexicographic order over path
components (`pathLeP`), and with no overrides this sorted order is exactly
the output order of the group's songs; the concrete example shows the
order is ascending, not descending. -/
theorem c2_default_order_is_sorted_ascending :
    (∀ (root : List String) (origin : Origin) (sf : Option ScanFilter) (title : String)
        (nonRel : List (List String)) (g : CompilationInputGroup),
        compilationNew root origin sf title [] nonRel = .ok g →
        ∃ rels, relPathsOf root nonRel = some rels ∧
          g.song_files.map (fun s => s.file) = songPathsSorted rels ∧
          List.Sorted pathLeP (songPathsSorted rels) ∧
          songPathsSorted rels ~ rels) ∧
      songPathsSorted [["b.mp3"], ["a.mp3"], ["c.mp3"]] = [["a.mp3"], ["b.mp3"], ["c.mp3"]] := by
  constructor
  · intro root origin sf title nonRel g h
    obtain ⟨rels, st, hrels, _, hproc, hmap, _, _, _, _⟩ :=
      compilationNew_ok_spec root origin sf title [] nonRel g h
    simp only [processOverrides, Except.ok.injEq] at hproc
    refine ⟨rels, hrels, ?_, List.sorted_insertionSort pathLeP rels,
      List.perm_insertionSort pathLeP rels⟩
    rw [hmap, ← hproc]
  · decide

/-- C5: merging an override into a Song is field-level: the file identity
and the derived/cached fields are never touched, an unset override field
leaves the previously-merged value unchanged, and a set override field
overwrites exactly that field. -/
theorem c5_override_merge_is_field_level (song : CompilationInputSong)
    (s : CompilationInputSongOverride) :
    (mergeSongOverride song s).file = song.file ∧
    (mergeSongOverride song s).derived_metadata_src = song.derived_metadata_src ∧
    (mergeSongOverride song s).cached_metadata = song.cached_metadata ∧
    (s.origin_mbid = none → (mergeSongOverride song s).origin_mbid = song.origin_mbid) ∧
    (s.override_metadata = none →
      (mergeSongOverride song s).override_metadata = song.override_metadata) ∧
    (∀ x, s.origin_mbid = some x → (mergeSongOverride song s).origin_mbid = some x) ∧
    (∀ m, s.override_metadata = some m →
      (mergeSongOverride song s).override_metadata = some m) := by
  unfold mergeSongOverride
  cases ho : s.origin_mbid <;> cases hm : s.override_metadata <;>
    simp [ho, hm]

/-- Witness for C5 at a concrete song and override: an override that sets
only the origin id keeps the previously-merged metadata override. -/
theorem c5_override_merge_is_field_level_witness :
    (mergeSongOverride
        { file := ["a.mp3"], origin_mbid := none,
          override_metadata := some { song_title := some "T", song_artists := none },
          derived_metadata_src := none, cached_metadata := none }
        { file_rel_path := ["a.mp3"], origin_mbid := some "mbid-1",
          override_metadata := none, override_position := none }).override_metadata
      = some { song_title := some "T", song_artists := none } :=
  (c5_override_merge_is_field_level _ _).2.2.2.2.1 rfl

/-- The order list after one loop iteration is a permutation of the one
before it. -/
theorem positionStep_perm (st : AsmState) (s : CompilationInputSongOverride)
    (order' : List RelPath) (h : positionStep st s = .ok order') : order' ~ st.order := by
  unfold positionStep at h
  cases hop : s.override_position with
  | none => simp only [hop, Except.ok.injEq] at h; rw [← h]
  | some op =>
    simp only [hop] at h
    exact applyPositionOverride_perm st.order s.file_rel_path op order' h

theorem applyOverride_order_perm (st : AsmState) (s : CompilationInputSongOverride)
    (st' : AsmState) (h : applyOverride st s = .ok st') : st'.order ~ st.order := by
  unfold applyOverride at h
  cases hpos : positionStep st s with
  | error e => simp only [hpos] at h; exact Except.noConfusion h
  | ok order' =>
    simp only [hpos] at h
    cases hsong : mapGet st.mapping s.file_rel_path with
    | none => simp only [hsong] at h; exact Except.noConfusion h
    | some song =>
      simp only [hsong, Except.ok.injEq] at h
      subst h
      exact positionStep_perm st s order' hpos

/-- When the requested position is within the vector, neither slice of the
reordering step is out of bounds. -/
theorem applyPositionOverride_ne_slice (order : List RelPath) (path : RelPath) (op : Nat)
    (hop : op < order.length) :
    applyPositionOverride order path op ≠ .error .sliceIndexOutOfBounds := by
  intro h
  unfold applyPositionOverride at h
  cases hfind : order.findIdx? (fun p => p == path) with
  | none => simp only [hfind] at h; simp at h
  | some existing =>
    simp only [hfind] at h
    obtain ⟨hi, _⟩ := findIdx?_getElem_eq hfind
    by_cases h1 : existing < op
    · rw [if_pos h1, if_pos hop] at h
      exact Except.noConfusion h
    · rw [if_neg h1] at h
      by_cases h2 : op < existing
      · rw [if_pos h2, if_pos hi] at h
        exact Except.noConfusion h
      · rw [if_neg h2] at h
        exact Except.noConfusion h

theorem applyOverride_ne_slice (st : AsmState) (s : CompilationInputSongOverride)
    (hop : ∀ op, s.override_position = some op → op < st.order.length) :
    applyOverride st s ≠ .error .sliceIndexOutOfBounds := by
  intro h
  unfold applyOverride at h
  cases hpos : positionStep st s with
  | ok order' =>
    simp only [hpos] at h
    cases hsong : mapGet st.mapping s.file_rel_path with
    | none => simp only [hsong] at h; simp at h
    | some song => simp only [hsong] at h; exact Except.noConfusion h
  | error e =>
    simp only [hpos] at h
    have he : e = .sliceIndexOutOfBounds := by simpa using h
    subst he
    unfold positionStep at hpos
    cases hq : s.override_position with
    | none => simp only [hq] at hpos; exact Except.noConfusion hpos
    | some op =>
      simp only [hq] at hpos
      exact applyPositionOverride_ne_slice st.order s.file_rel_path op (hop op hq) hpos

theorem processOverrides_ne_slice (n : Nat) :
    ∀ (ss : List CompilationInputSongOverride) (st : AsmState),
      st.order.length = n →
      (∀ s ∈ ss, ∀ op, s.override_position = some op → op < n) →
      processOverrides st ss ≠ .error .sliceIndexOutOfBounds
  | [], st, _, _ => by
    intro h
    simp [processOverrides] at h
  | s :: ss, st, hlen, hss => by
    intro h
    simp only [processOverrides] at h
    cases hstep : applyOverride st s with
    | error e =>
      simp only [hstep] at h
      have he : e = .sliceIndexOutOfBounds := by simpa using h
      subst he
      refine applyOverride_ne_slice st s (fun op hq => ?_) hstep
      rw [hlen]
      exact hss s (List.mem_cons_self s ss) op hq
    | ok st1 =>
      simp only [hstep] at h
      have hlen1 : st1.order.length = n := by
        rw [(applyOverride_order_perm st s st1 hstep).length_eq, hlen]
      exact processOverrides_ne_slice n ss st1 hlen1
        (fun s' hs' => hss s' (List.mem_cons_of_mem s hs')) h

theorem extract_error_is_removeMissing :
    ∀ (order : List RelPath) (m : List (RelPath × CompilationInputSong)) (e : Panic),
      extract order m = .error e → e = .removeMissing
  | [], m, e => by
    intro h
    simp [extract] at h
  | p :: rest, m, e => by
    intro h
    simp only [extract] at h
    cases hrem : mapRemove m p with
    | none =>
      simp only [hrem] at h
      injection h with h'
      exact h'.symm
    | some pr =>
      obtain ⟨song, m'⟩ := pr
      simp only [hrem] at h
      cases hex : extract rest m' with
      | error e' =>
        simp only [hex] at h
        injection h with h'
        rw [← h']
        exact extract_error_is_removeMissing rest m' e' hex
      | ok tl =>
        simp only [hex] at h
        exact Except.noConfusion h

theorem countP_eq_one_of_nodup_mem {A : Type} [DecidableEq A] (p : A) :
    ∀ l : List A, l.Nodup → p ∈ l → l.countP (fun q => decide (q = p)) = 1
  | [], _, hmem => absurd hmem (List.not_mem_nil p)
  | a :: l, hnd, hmem => by
    rw [List.countP_cons]
    rcases List.mem_cons.mp hmem with rfl | hmem'
    · have hz : l.countP (fun q => decide (q = p)) = 0 := by
        rw [List.countP_eq_zero]
        intro q hq
        simp only [decide_eq_true_eq]
        exact fun h => (List.nodup_cons.mp hnd).1 (h ▸ hq)
      simp [hz]
    · have hne : ¬ (a = p) := fun h => (List.nodup_cons.mp hnd).1 (h ▸ hmem')
      rw [countP_eq_one_of_nodup_mem p l (List.nodup_cons.mp hnd).2 hmem']
      simp [hne]

/-- C3 counterexample: on a concrete input whose scanned paths contain a
duplicate relative path, group assembly reaches the Rust
`panic!("rel_song_paths had duplicates")` (modelled `Panic.duplicateRelPaths`),
i.e. a process abort, not a recoverable typed `ReferenceError` value — the
constructor has no error return channel at all. -/
theorem c3_counterexample_duplicate_panics :
    compilationNew ["r"] ⟨none, none, none, none, none⟩ none "t" []
        [["r", "a.mp3"], ["r", "a.mp3"]] = .error Panic.duplicateRelPaths := by
  decide

/-- C3 amended: group assembly reacts to the three invariant violations by
panicking (process abort), not by returning group-local typed errors: a
scanned path not under the group root hits the `strip_prefix` `expect`; a
duplicate relative path hits `panic!("rel_song_paths had duplicates")`; an
override naming a path absent from the scan hits the position-lookup
`expect` (when it carries a position) or the `panic!` at the mapping
lookup (when it does not). -/
theorem c3_amended_assembly_panics_not_typed_errors :
    (∀ (root : List String) (origin : Origin) (sf : Option ScanFilter) (title : String)
        (songs : List CompilationInputSongOverride) (nonRel : List (List String)),
        relPathsOf root nonRel = none →
        compilationNew root origin sf title songs nonRel = .error .pathNotUnderRoot) ∧
    (∀ (root : List String) (origin : Origin) (sf : Option ScanFilter) (title : String)
        (songs : List CompilationInputSongOverride) (nonRel : List (List String))
        (rels : List RelPath),
        relPathsOf root nonRel = some rels → ¬ rels.Nodup →
        compilationNew root origin sf title songs nonRel = .error .duplicateRelPaths) ∧
    (∀ (st : AsmState) (s : CompilationInputSongOverride),
        s.override_position = none → mapGet st.mapping s.file_rel_path = none →
        applyOverride st s = .error .overrideTargetMissing) ∧
    (∀ (st : AsmState) (s : CompilationInputSongOverride) (op : Nat),
        s.override_position = some op →
        st.order.findIdx? (fun p => p == s.file_rel_path) = none →
        applyOverride st s = .error .overridePositionTargetMissing) := by
  refine ⟨fun root origin sf title songs nonRel h => ?_,
          fun root origin sf title songs nonRel rels h hnd => ?_,
          fun st s h1 h2 => ?_, fun st s op h1 h2 => ?_⟩
  · simp only [compilationNew, h]
  · have hsortnd : ¬ (songPathsSorted rels).Nodup := fun hs =>
      hnd (((List.perm_insertionSort pathLeP rels).nodup_iff).mp hs)
    have hne : (buildMapping (songPathsSorted rels)).length ≠ (songPathsSorted rels).length :=
      fun he => hsortnd ((buildMapping_length_eq_iff_nodup (songPathsSorted rels)).mp he)
    simp only [compilationNew, h]
    rw [if_pos hne]
  · simp only [applyOverride, positionStep, h1, h2]
  · simp only [applyOverride, positionStep, applyPositionOverride, h1, h2]

/-- Witness for the amended C3 at concrete inputs: each of the three
violations reaches its panic. -/
theorem c3_amended_assembly_panics_witness :
    compilationNew ["r"] ⟨none, none, none, none, none⟩ none "t" [] [["q", "a.mp3"]]
        = .error .pathNotUnderRoot ∧
    compilationNew ["r"] ⟨none, none, none, none, none⟩ none "t" []
        [["r", "b.mp3"], ["r", "b.mp3"]] = .error .duplicateRelPaths ∧
    applyOverride ⟨[], []⟩
        { file_rel_path := ["x.mp3"], origin_mbid := none, override_metadata := none,
          override_position := none } = .error .overrideTargetMissing ∧
    applyOverride ⟨[], []⟩
        { file_rel_path := ["x.mp3"], origin_mbid := none, override_metadata := none,
          override_position := some 0 } = .error .overridePositionTargetMissing :=
  ⟨c3_amended_assembly_panics_not_typed_errors.1 ["r"] ⟨none, none, none, none, none⟩ none "t" []
      [["q", "a.mp3"]] (by decide),
   c3_amended_assembly_panics_not_typed_errors.2.1 ["r"] ⟨none, none, none, none, none⟩ none "t"
      [] [["r", "b.mp3"], ["r", "b.mp3"]] [["b.mp3"], ["b.mp3"]] (by decide) (by decide),
   c3_amended_assembly_panics_not_typed_errors.2.2.1 ⟨[], []⟩
      { file_rel_path := ["x.mp3"], origin_mbid := none, override_metadata := none,
        override_position := none } rfl rfl,
   c3_amended_assembly_panics_not_typed_errors.2.2.2 ⟨[], []⟩
      { file_rel_path := ["x.mp3"], origin_mbid := none, override_metadata := none,
        override_position := some 0 } 0 rfl rfl⟩

/-- C4: when group assembly succeeds, the output has exactly one Song per
scanned input file: the output length equals the scanned length, and the
multiset of the output Songs' files is a permutation of the (duplicate-free)
scanned relative paths, so each scanned relative path is the file of
exactly one output Song. -/
theorem c4_output_songs_bijective (root : List String) (origin : Origin)
    (sf : Option ScanFilter) (title : String) (songs : List CompilationInputSongOverride)
    (nonRel : List (List String)) (g : CompilationInputGroup)
    (h : compilationNew root origin sf title songs nonRel = .ok g) :
    g.song_files.length = nonRel.length ∧
    ∃ rels, relPathsOf root nonRel = some rels ∧ rels.Nodup ∧
      g.song_files.map (fun s => s.file) ~ rels ∧
      ∀ p ∈ rels, (g.song_files.map (fun s => s.file)).countP (fun q => decide (q = p)) = 1 := by
  obtain ⟨rels, st, hrels, hnd, _, hmap, hperm, _, _, _⟩ :=
    compilationNew_ok_spec root origin sf title songs nonRel g h
  have hperm2 : g.song_files.map (fun s => s.file) ~ rels := by
    rw [hmap]
    exact hperm.trans (List.perm_insertionSort pathLeP rels)
  have hlen : g.song_files.length = nonRel.length := by
    have h1 := hperm2.length_eq
    rw [List.length_map] at h1
    rw [h1, relPathsOf_length root nonRel rels hrels]
  refine ⟨hlen, rels, hrels, hnd, hperm2, fun p hp => ?_⟩
  rw [hperm2.countP_eq]
  exact countP_eq_one_of_nodup_mem p rels hnd hp

/-- Witness for C4: a concrete successful assembly with two scanned files
and one override. -/
theorem c4_output_songs_bijective_witness :
    (⟨⟨none, none, none, none, none⟩, none, "t",
        [{ file := ["a.mp3"], origin_mbid := some "m1", override_metadata := none,
           derived_metadata_src := none, cached_metadata := none },
         initSong ["b.mp3"]]⟩ : CompilationInputGroup).song_files.length
        = [[ "r", "b.mp3"], ["r", "a.mp3"]].length ∧
    ∃ rels, relPathsOf ["r"] [["r", "b.mp3"], ["r", "a.mp3"]] = some rels ∧ rels.Nodup ∧
      ([{ file := ["a.mp3"], origin_mbid := some "m1", override_metadata := none,
          derived_metadata_src := none, cached_metadata := none },
        initSong ["b.mp3"]].map (fun s => s.file)) ~ rels ∧
      ∀ p ∈ rels,
        ([{ file := ["a.mp3"], origin_mbid := some "m1", override_metadata := none,
            derived_metadata_src := none, cached_metadata := none },
          initSong ["b.mp3"]].map (fun s => s.file)).countP (fun q => decide (q = p)) = 1 :=
  c4_output_songs_bijective ["r"] ⟨none, none, none, none, none⟩ none "t"
    [{ file_rel_path := ["a.mp3"], origin_mbid := some "m1", override_metadata := none,
       override_position := none }]
    [["r", "b.mp3"], ["r", "a.mp3"]] _ (by decide)

/-- C10: the position-override rotation indexes in bounds whenever every
override position is below the scanned song count (construction can then
never hit the slice bounds panic), while a concrete input with an override
position equal to the song count (and the named song earlier in the order)
makes the slice range `[existing ..= override_pos]` out of bounds and the
construction panics. -/
theorem c10_override_position_bounds :
    (∀ (root : List String) (origin : Origin) (sf : Option ScanFilter) (title : String)
        (songs : List CompilationInputSongOverride) (nonRel : List (List String)),
        (∀ s ∈ songs, ∀ op, s.override_position = some op → op < nonRel.length) →
        compilationNew root origin sf title songs nonRel ≠ .error .sliceIndexOutOfBounds) ∧
      compilationNew ["r"] ⟨none, none, none, none, none⟩ none "t"
          [{ file_rel_path := ["a.mp3"], origin_mbid := none, override_metadata := none,
             override_position := some 1 }] [["r", "a.mp3"]]
        = .error .sliceIndexOutOfBounds := by
  constructor
  · intro root origin sf title songs nonRel hbound hcontra
    unfold compilationNew at hcontra
    cases hrels : relPathsOf root nonRel with
    | none => simp only [hrels] at hcontra; simp at hcontra
    | some rels =>
      simp only [hrels] at hcontra
      by_cases hdup : (buildMapping (songPathsSorted rels)).length = (songPathsSorted rels).length
      · rw [if_neg (not_not_intro hdup)] at hcontra
        cases hproc : processOverrides
            ⟨songPathsSorted rels, buildMapping (songPathsSorted rels)⟩ songs with
        | error e =>
          simp only [hproc] at hcontra
          have he : e = .sliceIndexOutOfBounds := by simpa using hcontra
          subst he
          refine processOverrides_ne_slice (songPathsSorted rels).length songs _ rfl
            (fun s hs op hq => ?_) hproc
          have hlen2 : (songPathsSorted rels).length = nonRel.length := by
            simp only [songPathsSorted]
            rw [List.length_insertionSort]
            exact relPathsOf_length root nonRel rels hrels
          rw [hlen2]
          exact hbound s hs op hq
        | ok st =>
          simp only [hproc] at hcontra
          cases hext : extract st.order st.mapping with
          | error e =>
            simp only [hext] at hcontra
            have he : e = .sliceIndexOutOfBounds := by simpa using hcontra
            have hrm := extract_error_is_removeMissing st.order st.mapping e hext
            rw [he] at hrm
            exact Panic.noConfusion hrm
          | ok files => simp only [hext] at hcontra; exact Except.noConfusion hcontra
      · rw [if_pos hdup] at hcontra
        simp at hcontra
  · decide

/-- Witness for C10: a two-song group with an in-range override position
never hits the slice bounds panic. -/
theorem c10_override_position_bounds_witness :
    compilationNew ["r"] ⟨none, none, none, none, none⟩ none "t"
        [{ file_rel_path := ["b.mp3"], origin_mbid := none, override_metadata := none,
           override_position := some 0 }] [["r", "a.mp3"], ["r", "b.mp3"]]
      ≠ .error .sliceIndexOutOfBounds :=
  c10_override_position_bounds.1 ["r"] ⟨none, none, none, none, none⟩ none "t"
    [{ file_rel_path := ["b.mp3"], origin_mbid := none, override_metadata := none,
       override_position := some 0 }] [["r", "a.mp3"], ["r", "b.mp3"]] (by decide)

/-- Witness for C1 at the spec's example: the override sending `c.mp3`
(current index 2) to position 0 rotates it to the front. -/
theorem c1_position_override_is_rotation_witness :
    applyPositionOverride [["a.mp3"], ["b.mp3"], ["c.mp3"]] ["c.mp3"] 0
        = .ok (List.insertIdx 0 ["c.mp3"] ([["a.mp3"], ["b.mp3"], ["c.mp3"]].eraseIdx 2)) ∧
      (List.insertIdx 0 ["c.mp3"] ([["a.mp3"], ["b.mp3"], ["c.mp3"]].eraseIdx 2))[0]?
        = some ["c.mp3"] :=
  c1_position_override_is_rotation.1 [["a.mp3"], ["b.mp3"], ["c.mp3"]] ["c.mp3"] 2 0
    (by decide) (by decide)

/-- Witness for C2: a concrete no-override group is emitted in ascending
sorted order. -/
theorem c2_default_order_is_sorted_ascending_witness :
    ∃ rels, relPathsOf ["r"] [["r", "b.mp3"], ["r", "a.mp3"]] = some rels ∧
      (⟨⟨none, none, none, none, none⟩, none, "t",
          [initSong ["a.mp3"], initSong ["b.mp3"]]⟩ :
        CompilationInputGroup).song_files.map (fun s => s.file) = songPathsSorted rels ∧
      List.Sorted pathLeP (songPathsSorted rels) ∧
      songPathsSorted rels ~ rels :=
  c2_default_order_is_sorted_ascending.1 ["r"] ⟨none, none, none, none, none⟩ none "t"
    [["r", "b.mp3"], ["r", "a.mp3"]] _ (by decide)

/-- C6 counterexample: a readable-extension but unreadable file does NOT
yield an all-absent record — the tag-library error is propagated as an
engine-visible `Err`, refuting "never returns an engine-fatal error for
any input". -/
theorem c6_counterexample_unreadable_errors :
    parse_from_file ["song.mp3"] (.error "unreadable") (.error "unreadable")
        (.error "unreadable") = .error "unreadable" := by
  decide

/-- C6 amended: a file whose extension dispatches to no known tag format
yields the all-absent default record, but when the extension dispatches to
a tag format and that format's read fails (unreadable file), the reader
returns the read error instead of an all-absent record. -/
theorem c6_amended_unsupported_absent_unreadable_errors :
    (∀ (path : RelPath) (i : Except String Id3Tag) (m : Except String M4aTag)
        (f : Except String FlacTag),
        dispatchFormat (pathExtension path) = .noTag →
        parse_from_file path i m f = .ok nativeMetadataDefault) ∧
    (∀ (path : RelPath) (e : String) (m : Except String M4aTag) (f : Except String FlacTag),
        dispatchFormat (pathExtension path) = .id3 →
        parse_from_file path (.error e) m f = .error e) ∧
    (∀ (path : RelPath) (i : Except String Id3Tag) (e : String) (f : Except String FlacTag),
        dispatchFormat (pathExtension path) = .m4a →
        parse_from_file path i (.error e) f = .error e) ∧
    (∀ (path : RelPath) (i : Except String Id3Tag) (m : Except String M4aTag) (e : String),
        dispatchFormat (pathExtension path) = .flac →
        parse_from_file path i m (.error e) = .error e) := by
  refine ⟨fun path i m f h => ?_, fun path e m f h => ?_, fun path i e f h => ?_,
    fun path i m e h => ?_⟩ <;> simp only [parse_from_file, h]

/-- Witness for the amended C6 at concrete inputs. -/
theorem c6_amended_witness :
    parse_from_file ["a.txt"] (.error "x") (.error "x") (.error "x")
        = .ok nativeMetadataDefault ∧
    parse_from_file ["a.mp3"] (.error "io1") (.error "z") (.error "z") = .error "io1" ∧
    parse_from_file ["a.m4a"] (.error "z") (.error "io2") (.error "z") = .error "io2" ∧
    parse_from_file ["a.flac"] (.error "z") (.error "z") (.error "io3") = .error "io3" :=
  ⟨c6_amended_unsupported_absent_unreadable_errors.1 ["a.txt"] (.error "x") (.error "x")
      (.error "x") (by decide),
   c6_amended_unsupported_absent_unreadable_errors.2.1 ["a.mp3"] "io1" (.error "z")
      (.error "z") (by decide),
   c6_amended_unsupported_absent_unreadable_errors.2.2.1 ["a.m4a"] (.error "z") "io2"
      (.error "z") (by decide),
   c6_amended_unsupported_absent_unreadable_errors.2.2.2 ["a.flac"] (.error "z") (.error "z")
      "io3" (by decide)⟩

/-- C7: the FLAC branch evaluated at the failing input — a readable FLAC
tag carrying `TrackNumber 1/17` (with artist `ATLUS`, exactly the example
in the source's own comment block).  The claim expects
`track_idx = 1, num_tracks = 17`; the code returns both absent, because
lines 142-146 parse the track-number string out of the `"artist"` vorbis
comment instead of the track-number comment.  Two further evaluations pin
the companion slips: an artist containing digits puts the parsed number in
`num_tracks` (lines 179-180 assign the fields from the oppositely-named
locals), and an artist containing `<digits>/<digit>` makes the branch
return `Err`, because line 158 parses capture group 2 — `"/4"`, slash
included — as a u64. -/
theorem c7_flac_track_fields_wrong_at_failing_input :
    flacParse ⟨fun k =>
        if k = "title" then some ["Dance!"]
        else if k = "album" then some ["PERSONA4 DANCING ALL NIGHT Original Soundtrack Disc3"]
        else if k = "artist" then some ["ATLUS"]
        else if k = "tracknumber" then some ["1/17"]
        else none⟩
      = .ok { fmt := .flac, name := some "Dance!",
              album := some "PERSONA4 DANCING ALL NIGHT Original Soundtrack Disc3",
              album_artists := [], artist := ["ATLUS"], num_discs := none, disc_idx := none,
              num_tracks := none, track_idx := none } ∧
    flacParse ⟨fun k => if k = "artist" then some ["Blink 182"] else none⟩
      = .ok { fmt := .flac, name := none, album := none, album_artists := [],
              artist := ["Blink 182"], num_discs := none, disc_idx := none,
              num_tracks := some 182, track_idx := none } ∧
    flacParse ⟨fun k =>
        if k = "artist" then some ["AC 3/4"]
        else if k = "tracknumber" then some ["1/17"] else none⟩
      = .error "invalid digit found in string" := by
  refine ⟨?_, ?_, ?_⟩ <;> decide

/-- C8: with no scan_filter the accepted extension set is exactly
`{mp3, ogg, flac, wav, aiff, m4a}`; with a scan_filter it is exactly its
`ext_filters`; and a file is accepted iff its extension is a member of the
active set. -/
theorem c8_scan_extension_sets :
    scanExts none = ["mp3", "ogg", "flac", "wav", "aiff", "m4a"] ∧
    (∀ f, scanExts (some f) = f.ext_filters) ∧
    (∀ sf p, fileAccepted sf p = true ↔ ∃ e, pathExtension p = some e ∧ e ∈ scanExts sf) :=
  ⟨rfl, fun _ => rfl, fileAccepted_iff⟩

/-- Witness for C8 at concrete files: a default-set member and a
filter-set member are accepted. -/
theorem c8_scan_extension_sets_witness :
    fileAccepted none ["x", "a.flac"] = true ∧
    fileAccepted (some ⟨["opus"]⟩) ["a.opus"] = true :=
  ⟨(c8_scan_extension_sets.2.2 none ["x", "a.flac"]).mpr ⟨"flac", by decide, by decide⟩,
   (c8_scan_extension_sets.2.2 (some ⟨["opus"]⟩) ["a.opus"]).mpr ⟨"opus", by decide, by decide⟩⟩

/-- C9: scan acceptance requires an extension byte-for-byte equal
(case-sensitively) to an active filter entry — `a.MP3` and an
extension-less file are never scanned under the default set — while the
native tag reader's dispatch treats the same extension case-insensitively
(`MP3` still dispatches to the ID3 decoder). -/
theorem c9_scan_case_sensitive_reader_case_insensitive :
    (∀ sf p, fileAccepted sf p = true ↔ ∃ e, pathExtension p = some e ∧ e ∈ scanExts sf) ∧
    fileAccepted none ["a.MP3"] = false ∧
    fileAccepted none ["amp3"] = false ∧
    pathExtension ["amp3"] = none ∧
    dispatchFormat (pathExtension ["a.MP3"]) = .id3 :=
  ⟨fileAccepted_iff, by decide, by decide, by decide, by decide⟩

/-- Witness for C9: the acceptance equivalence instantiated at a concrete
lower-case file. -/
theorem c9_scan_case_sensitive_witness :
    fileAccepted none ["b.mp3"] = true :=
  (c9_scan_case_sensitive_reader_case_insensitive.1 none ["b.mp3"]).mpr
    ⟨"mp3", by decide, by decide⟩

end TM2
